import Mathlib

/-!
Verification development for the EDGAR EPS parser (`parser.py`).

Strings are embedded as `List Char`.  Python regular expressions that the
source uses are embedded as executable Lean functions implementing the same
backtracking search semantics (leftmost match, greedy/non-greedy operators),
specialised to the concrete patterns of the source.  The character classes
`\s`, `\w`, `\d` are modelled over the ASCII range, which covers every
character the patterns and the documents of interest use.
-/

namespace EdgarParser

/-- Python `\s` / `str.strip` whitespace, ASCII range. -/
def isSpaceChar (c : Char) : Bool :=
  c = ' ' || c = '\t' || c = '\n' || c = '\r' || c = '\x0b' || c = '\x0c'

/-- Python `\w` word character, ASCII range. -/
def isWordChar (c : Char) : Bool :=
  c.isAlpha || c.isDigit || c = '_'

/-- Python `str.strip()`: drop leading and trailing whitespace. -/
def pyStrip (s : List Char) : List Char :=
  ((s.dropWhile isSpaceChar).reverse.dropWhile isSpaceChar).reverse

/-- Helper for Python `str.split()`: accumulate the current word (reversed). -/
def splitWSAux : List Char → List Char → List (List Char)
  | acc, [] => if acc = [] then [] else [acc.reverse]
  | acc, c :: cs =>
    if isSpaceChar c then
      if acc = [] then splitWSAux [] cs else acc.reverse :: splitWSAux [] cs
    else splitWSAux (c :: acc) cs

/-- Python `str.split()` with no arguments: split on whitespace runs, no empties. -/
def splitWS (s : List Char) : List (List Char) := splitWSAux [] s

/-- Python `' '.join(s.split())`: collapse whitespace runs to single spaces. -/
def collapseWS (s : List Char) : List Char :=
  List.intercalate [' '] (splitWS s)

/-- Maximal leading digit run and the remainder (`\d+` greedy). -/
def takeDigits : List Char → List Char × List Char
  | [] => ([], [])
  | c :: cs =>
    if c.isDigit then (c :: (takeDigits cs).1, (takeDigits cs).2)
    else ([], c :: cs)

/-- Match `\d+\.\d+` anchored at the start of the list; return the matched
substring.  Backtracking inside the first `\d+` can never move the dot off
the end of the maximal digit run, so the match is deterministic. -/
def matchDecimalAt (s : List Char) : Option (List Char) :=
  if (takeDigits s).1 = [] then none
  else
    match (takeDigits s).2 with
    | c :: r2 =>
      if c = '.' then
        if (takeDigits r2).1 = [] then none
        else some ((takeDigits s).1 ++ '.' :: (takeDigits r2).1)
      else none
    | [] => none

/-- `re.search(r'(\d+\.\d+)', s)`: leftmost match of `\d+\.\d+`. -/
def findDecimal : List Char → Option (List Char)
  | [] => none
  | c :: cs =>
    match matchDecimalAt (c :: cs) with
    | some m => some m
    | none => findDecimal cs

/-- `_format_eps_value` from `parser.py`: empty input gives `none`; the value
is negative iff `'('` occurs anywhere; the first `\d+\.\d+` substring is
used; `none` when no such substring exists. -/
def formatEpsValue (s : List Char) : Option (List Char) :=
  if s = [] then none
  else
    match findDecimal s with
    | some m => some (if '(' ∈ s then '-' :: m else m)
    | none => none

/-- `EPS_VALUE_PATTERN.match(s)` for the source pattern
`^\(?\s*\$?\s*(\d+\.\d+)\s*\)?$` as a Boolean.  Every optional / greedy
piece of this pattern is forced (no two backtracking branches can both
succeed), so a direct deterministic scan implements the match. -/
def epsOptChar (c : Char) (s : List Char) : List Char :=
  match s with
  | d :: t => if d = c then t else s
  | [] => s

/-- The part of the cell text left after `\(?\s*\$?\s*`. -/
def epsStripped (s : List Char) : List Char :=
  (epsOptChar '$' ((epsOptChar '(' s).dropWhile isSpaceChar)).dropWhile isSpaceChar

def epsValueMatch (s : List Char) : Bool :=
  if (takeDigits (epsStripped s)).1 = [] then false
  else
    match (takeDigits (epsStripped s)).2 with
    | c :: r2 =>
      if c = '.' then
        if (takeDigits r2).1 = [] then false
        else epsOptChar ')' ((takeDigits r2).2.dropWhile isSpaceChar) = []
      else false
    | [] => false

/-- The two search directions of `_get_search_direction`. -/
inductive Direction : Type where
  | leftToRight : Direction
  | rightToLeft : Direction
deriving DecidableEq

/-- `_find_value_in_row`: traverse the cells (reversed iff right-to-left);
for the first cell whose stripped text matches `EPS_VALUE_PATTERN`, return
`_format_eps_value` of it when that is truthy (a non-empty string). -/
def findValueInRowAux : List (List Char) → Option (List Char)
  | [] => none
  | c :: cs =>
    let t := pyStrip c
    if epsValueMatch t then
      match formatEpsValue t with
      | some v => if v = [] then findValueInRowAux cs else some v
      | none => findValueInRowAux cs
    else findValueInRowAux cs

/-- `_find_value_in_row(cells, search_direction)`. -/
def findValueInRow (cells : List (List Char)) (dir : Direction) : Option (List Char) :=
  findValueInRowAux (if dir = Direction.rightToLeft then cells.reverse else cells)

/-- One recorded year occurrence: `{'year': ..., 'index': ...}`. -/
structure YearPos : Type where
  year : Nat
  index : Nat
deriving DecidableEq

/-- Leftmost match of `YEAR_PATTERN = \b(20\d{2})\b`; `prev` is the character
preceding the current scan position (for the word boundary).  Returns the
year value of the first match, as `int(matches[0])` does. -/
def findYearAux : Option Char → List Char → Option Nat
  | prev, '2' :: '0' :: d1 :: d2 :: rest =>
    if d1.isDigit && d2.isDigit
        && (match prev with | none => true | some p => !isWordChar p)
        && (match rest with | [] => true | r :: _ => !isWordChar r) then
      some (2000 + 10 * (d1.toNat - 48) + (d2.toNat - 48))
    else findYearAux (some '2') ('0' :: d1 :: d2 :: rest)
  | _, c :: cs => findYearAux (some c) cs
  | _, [] => none

/-- First `\b(20\d{2})\b` match in a string. -/
def findYear (s : List Char) : Option Nat := findYearAux none s

/-- The year positions recorded from one row: enumerate the cells, strip each
cell's text, record `(year, column index)` for cells with a year match. -/
def rowYearPositions (row : List (List Char)) : List YearPos :=
  (row.enum).filterMap fun p =>
    (findYear (pyStrip p.2)).map fun y => YearPos.mk y p.1

/-- Year positions over the first 5 rows of a table
(`table.find_all('tr', limit=5)`). -/
def tableYearPositions (t : List (List (List Char))) : List YearPos :=
  ((t.take 5).map rowYearPositions).flatten

/-- Python `max(l, key=lambda x: x['year'])` starting from `p`: keep the
current best, replace only on a strictly larger year (first maximum wins). -/
def maxByYear : YearPos → List YearPos → YearPos
  | p, [] => p
  | p, q :: qs => maxByYear (if q.year > p.year then q else p) qs

/-- Python `min(l, key=lambda x: x['year'])` starting from `p`. -/
def minByYear : YearPos → List YearPos → YearPos
  | p, [] => p
  | p, q :: qs => minByYear (if q.year < p.year then q else p) qs

/-- `_get_search_direction(table)`. -/
def getSearchDirection (t : List (List (List Char))) : Direction :=
  match tableYearPositions t with
  | [] => Direction.leftToRight
  | p :: ps =>
    if (maxByYear p ps).index > (minByYear p ps).index then
      Direction.rightToLeft
    else Direction.leftToRight

/-- Abstract syntax of the keyword regexes of `EPS_KEYWORD_PATTERNS` (after a
leading `\b`, which is handled by the search driver): case-insensitive
literals, the first capture group, greedy `?` and `|`, `\s*`, the class
`[-—]`, and a trailing `\b` (which in these patterns always follows a word
character). -/
inductive MRe : Type where
  | lit : List Char → MRe
  | grp : MRe → MRe
  | opt : MRe → MRe
  | alt : MRe → MRe → MRe
  | seq : MRe → MRe → MRe
  | spaces : MRe
  | dash : MRe
  | wordEnd : MRe

/-- Consume a literal case-insensitively (`re.IGNORECASE`); return the rest. -/
def litRun : List Char → List Char → Option (List Char)
  | [], s => some s
  | _ :: _, [] => none
  | c :: ws, d :: ds => if d.toLower = c.toLower then litRun ws ds else none

/-- Greedy `\s*` with backtracking, in continuation style: longest first.
`g` is the current group-1 capture, threaded unchanged. -/
def spacesRun {α : Type} : List Char → Option (List Char) →
    (List Char → Option (List Char) → Option α) → Option α
  | [], g, k => k [] g
  | c :: cs, g, k =>
    if isSpaceChar c then
      match spacesRun cs g k with
      | some r => some r
      | none => k (c :: cs) g
    else k (c :: cs) g

/-- Backtracking matcher in continuation-passing style, reproducing the
Python engine's order (greedy operators try the longer branch first,
alternation left-to-right).  `g` is the group-1 capture so far; the
continuation receives the remaining input and capture. -/
def mrun {α : Type} : MRe → List Char → Option (List Char) →
    (List Char → Option (List Char) → Option α) → Option α
  | .lit w, s, g, k =>
    match litRun w s with
    | some rest => k rest g
    | none => none
  | .grp r, s, g, k =>
    mrun r s g fun s2 _ => k s2 (some (s.take (s.length - s2.length)))
  | .opt r, s, g, k =>
    match mrun r s g k with
    | some res => some res
    | none => k s g
  | .alt a b, s, g, k =>
    match mrun a s g k with
    | some res => some res
    | none => mrun b s g k
  | .seq a b, s, g, k => mrun a s g fun s2 g2 => mrun b s2 g2 k
  | .spaces, s, g, k => spacesRun s g k
  | .dash, s, g, k =>
    match s with
    | c :: cs => if c = '-' || c = '—' then k cs g else none
    | [] => none
  | .wordEnd, s, g, k =>
    match s with
    | [] => k [] g
    | c :: _ => if isWordChar c then none else k s g

/-- One entry of `EPS_KEYWORD_PATTERNS`: the regex source text (returned as
the matched-pattern descriptor and used as the frequency-table key), whether
the pattern starts with `\b`, whether it contains a capture group, and its
body. -/
structure KPat : Type where
  src : String
  needB : Bool
  hasGrp : Bool
  re : MRe

/-- `basic earnings per (common )?share` -/
def basicPat1 : KPat :=
  ⟨"basic earnings per (common )?share", false, true,
    .seq (.lit ("basic earnings per ".data))
      (.seq (.opt (.grp (.lit ("common ".data)))) (.lit ("share".data)))⟩

/-- `net (income|earnings)( \(loss\))? per (common )?share\s*[-—]\s*basic` -/
def basicPat2 : KPat :=
  ⟨"net (income|earnings)( \\(loss\\))? per (common )?share\\s*[-—]\\s*basic", false, true,
    .seq (.lit ("net ".data))
      (.seq (.grp (.alt (.lit ("income".data)) (.lit ("earnings".data))))
        (.seq (.opt (.lit (" (loss)".data)))
          (.seq (.lit (" per ".data))
            (.seq (.opt (.lit ("common ".data)))
              (.seq (.lit ("share".data))
                (.seq .spaces (.seq .dash (.seq .spaces (.lit ("basic".data))))))))))⟩

/-- `(income|loss) \(loss\)? per share\s*[-—]\s*basic` — note that `\(loss`
is mandatory here and only the closing `\)` is optional. -/
def basicPat3 : KPat :=
  ⟨"(income|loss) \\(loss\\)? per share\\s*[-—]\\s*basic", false, true,
    .seq (.grp (.alt (.lit ("income".data)) (.lit ("loss".data))))
      (.seq (.lit (" (loss".data))
        (.seq (.opt (.lit (")".data)))
          (.seq (.lit (" per share".data))
            (.seq .spaces (.seq .dash (.seq .spaces (.lit ("basic".data))))))))⟩

/-- `\bbasic eps\b` -/
def basicPat4 : KPat :=
  ⟨"\\bbasic eps\\b", true, false, .seq (.lit ("basic eps".data)) .wordEnd⟩

/-- `\bbasic\b` -/
def basicPat5 : KPat :=
  ⟨"\\bbasic\\b", true, false, .seq (.lit ("basic".data)) .wordEnd⟩

/-- `diluted earnings per (common )?share` -/
def dilutedPat1 : KPat :=
  ⟨"diluted earnings per (common )?share", false, true,
    .seq (.lit ("diluted earnings per ".data))
      (.seq (.opt (.grp (.lit ("common ".data)))) (.lit ("share".data)))⟩

/-- `net (income|earnings)( \(loss\))? per (common )?share\s*[-—]\s*diluted` -/
def dilutedPat2 : KPat :=
  ⟨"net (income|earnings)( \\(loss\\))? per (common )?share\\s*[-—]\\s*diluted", false, true,
    .seq (.lit ("net ".data))
      (.seq (.grp (.alt (.lit ("income".data)) (.lit ("earnings".data))))
        (.seq (.opt (.lit (" (loss)".data)))
          (.seq (.lit (" per ".data))
            (.seq (.opt (.lit ("common ".data)))
              (.seq (.lit ("share".data))
                (.seq .spaces (.seq .dash (.seq .spaces (.lit ("diluted".data))))))))))⟩

/-- `(income|loss) \(loss\)? per share\s*[-—]\s*diluted` -/
def dilutedPat3 : KPat :=
  ⟨"(income|loss) \\(loss\\)? per share\\s*[-—]\\s*diluted", false, true,
    .seq (.grp (.alt (.lit ("income".data)) (.lit ("loss".data))))
      (.seq (.lit (" (loss".data))
        (.seq (.opt (.lit (")".data)))
          (.seq (.lit (" per share".data))
            (.seq .spaces (.seq .dash (.seq .spaces (.lit ("diluted".data))))))))⟩

/-- `\bdiluted eps\b` -/
def dilutedPat4 : KPat :=
  ⟨"\\bdiluted eps\\b", true, false, .seq (.lit ("diluted eps".data)) .wordEnd⟩

/-- `per diluted (common )?share` -/
def dilutedPat5 : KPat :=
  ⟨"per diluted (common )?share", false, true,
    .seq (.lit ("per diluted ".data))
      (.seq (.opt (.grp (.lit ("common ".data)))) (.lit ("share".data)))⟩

/-- `\beps\b` -/
def genericPat1 : KPat :=
  ⟨"\\beps\\b", true, false, .seq (.lit ("eps".data)) .wordEnd⟩

/-- `(net )?(income|loss|earnings)( \(loss\))? per (common )?share` -/
def genericPat2 : KPat :=
  ⟨"(net )?(income|loss|earnings)( \\(loss\\))? per (common )?share", false, true,
    .seq (.opt (.grp (.lit ("net ".data))))
      (.seq (.alt (.lit ("income".data)) (.alt (.lit ("loss".data)) (.lit ("earnings".data))))
        (.seq (.opt (.lit (" (loss)".data)))
          (.seq (.lit (" per ".data))
            (.seq (.opt (.lit ("common ".data))) (.lit ("share".data))))))⟩

/-- `per (common )?share` -/
def genericPat3 : KPat :=
  ⟨"per (common )?share", false, true,
    .seq (.lit ("per ".data))
      (.seq (.opt (.grp (.lit ("common ".data)))) (.lit ("share".data)))⟩

/-- The `"basic"` tier of `EPS_KEYWORD_PATTERNS`, in listed order. -/
def basicPats : List KPat := [basicPat1, basicPat2, basicPat3, basicPat4, basicPat5]

/-- The `"diluted"` tier, in listed order. -/
def dilutedPats : List KPat := [dilutedPat1, dilutedPat2, dilutedPat3, dilutedPat4, dilutedPat5]

/-- The `"generic"` tier, in listed order. -/
def genericPats : List KPat := [genericPat1, genericPat2, genericPat3]

/-- All patterns in the order the strategies iterate them:
`for priority in ["basic", "diluted", "generic"]`. -/
def allPats : List KPat := basicPats ++ dilutedPats ++ genericPats

/-- The leading `\b` of a pattern holds at a scan position iff the preceding
character (`none` at the string start) is not a word character. -/
def boundaryOK : Option Char → Bool
  | none => true
  | some p => !isWordChar p

/-- Does the pattern match starting exactly at this position (given the
preceding character)?  Used for `pattern.search(row_text)` truthiness. -/
def patTryAt (p : KPat) (prev : Option Char) (s : List Char) : Bool :=
  if p.needB && !boundaryOK prev then false
  else (mrun p.re s none fun _ _ => some true).isSome

/-- Scan for `pattern.search(s)`: leftmost position first. -/
def patSearchAux (p : KPat) : Option Char → List Char → Bool
  | prev, [] => patTryAt p prev []
  | prev, c :: cs => patTryAt p prev (c :: cs) || patSearchAux p (some c) cs

/-- `pattern.search(s)` as a Boolean. -/
def patSearch (p : KPat) (s : List Char) : Bool := patSearchAux p none s

/-- A table is a list of rows; a row is a list of raw cell texts (`td`/`th`
contents before stripping). -/
abbrev Table : Type := List (List (List Char))

/-- `' '.join(row.get_text(strip=True).split())`: `get_text(strip=True)` on a
row concatenates the stripped cell texts with no separator; the split/join
collapses remaining whitespace. -/
def rowTextOf (row : List (List Char)) : List Char :=
  collapseWS ((row.map pyStrip).flatten)

/-- The method descriptor built by `_parse_eps_from_tables`. -/
def methodStr (dir : Direction) (nextRow : Bool) : String :=
  if nextRow then
    if dir = Direction.rightToLeft then "Table (Next Row, R-L Search)"
    else "Table (Next Row, L-R Search)"
  else
    if dir = Direction.rightToLeft then "Table (R-L Search)"
    else "Table (L-R Search)"

/-- The row loop of `_parse_eps_from_tables` for one pattern and one table:
on a row whose flattened text matches the pattern, try the row's cells, then
the next row's cells; otherwise (and when both fail) continue.  Returns the
value and whether the next row supplied it. -/
def scanRows (p : KPat) (dir : Direction) : List (List (List Char)) →
    Option (List Char × Bool)
  | [] => none
  | r :: rest =>
    if patSearch p (rowTextOf r) then
      match findValueInRow r dir with
      | some v => some (v, false)
      | none =>
        match rest with
        | r2 :: _ =>
          match findValueInRow r2 dir with
          | some v => some (v, true)
          | none => scanRows p dir rest
        | [] => scanRows p dir rest
    else scanRows p dir rest

/-- The table loop for one pattern: each table gets its own search
direction. -/
def scanTables (p : KPat) : List Table → Option (List Char × String)
  | [] => none
  | t :: ts =>
    let dir := getSearchDirection t
    match scanRows p dir t with
    | some r => some (r.1, methodStr dir r.2)
    | none => scanTables p ts

/-- The pattern loop: patterns in catalog order, first success wins. -/
def scanPats : List KPat → List Table → Option (List Char × String × String)
  | [], _ => none
  | p :: ps, tables =>
    match scanTables p tables with
    | some r => some (r.1, r.2, p.src)
    | none => scanPats ps tables

/-- `_parse_eps_from_tables` on the list of tables of a document (the
non-exceptional path; the `try/except` wrapper is modelled separately). -/
def parseEpsFromTables (tables : List Table) : Option (List Char × String × String) :=
  scanPats allPats tables

/-- Match `\d+\.\d+\)?` at the start, returning the matched characters
(the tail of the numeric token of the fallback regex). -/
def closeParen : List Char → List Char
  | d :: _ => if d = ')' then [')'] else []
  | [] => []

def numClose (s : List Char) : Option (List Char) :=
  if (takeDigits s).1 = [] then none
  else
    match (takeDigits s).2 with
    | c :: r2 =>
      if c = '.' then
        if (takeDigits r2).1 = [] then none
        else
          some ((takeDigits s).1 ++ '.' :: ((takeDigits r2).1 ++ closeParen (takeDigits r2).2))
      else none
    | [] => none

/-- Match `\$\s?\d+\.\d+\)?` at the start, returning the matched characters.
If a whitespace character follows the `$` the digits must follow it (the
backtracking alternative without the whitespace dies on the space). -/
def tokenDollar : List Char → Option (List Char)
  | c :: d :: t =>
    if c = '$' then
      if isSpaceChar d then (numClose t).map fun n => c :: d :: n
      else (numClose (d :: t)).map fun n => c :: n
    else none
  | _ => none

/-- Match the fallback's captured token `\(?\$\s?\d+\.\d+\)?` at the start.
When the input starts with `(` the `\(?` branch that skips it cannot succeed
(`\$` then fails on the `(`), so consuming it is forced. -/
def captureToken : List Char → Option (List Char)
  | c :: s1 =>
    if c = '(' then (tokenDollar s1).map fun t => c :: t
    else tokenDollar (c :: s1)
  | [] => none

/-- The non-greedy window `.{0,50}?` followed by the token capture: try the
token at the current position first, then extend the window one non-newline
character at a time. -/
def gapTok : Nat → List Char → Option (List Char)
  | 0, s => captureToken s
  | Nat.succ _, [] => captureToken []
  | Nat.succ m, c :: cs =>
    match captureToken (c :: cs) with
    | some t => some t
    | none => if c = '\n' then none else gapTok m cs

/-- One attempt of the augmented fallback regex
`pattern.pattern + r".{0,50}?(\(?\$\s?\d+\.\d+\)?)"` at a fixed position.
`none` means no match here; `some g` is a match whose `group(1)` is `g` —
the numeric token when the base pattern has no group of its own, otherwise
the base pattern's first group (which may be unmatched, i.e. `none`). -/
def fallbackTryAt (p : KPat) (prev : Option Char) (s : List Char) :
    Option (Option (List Char)) :=
  if p.needB && !boundaryOK prev then none
  else
    mrun p.re s none fun s2 g =>
      match gapTok 50 s2 with
      | some tok => some (if p.hasGrp then g else some tok)
      | none => none

/-- `regex.search(full_text)` for the augmented pattern: leftmost match,
returning its `group(1)`. -/
def fallbackSearchAux (p : KPat) : Option Char → List Char → Option (Option (List Char))
  | prev, [] => fallbackTryAt p prev []
  | prev, c :: cs =>
    match fallbackTryAt p prev (c :: cs) with
    | some g => some g
    | none => fallbackSearchAux p (some c) cs

/-- Leftmost match of the augmented fallback regex over the full text. -/
def fallbackSearch (p : KPat) (s : List Char) : Option (Option (List Char)) :=
  fallbackSearchAux p none s

/-- `_format_eps_value(match.group(1))`: `group(1)` may be `None`, which is
falsy and yields `None`. -/
def formatEpsValueOpt : Option (List Char) → Option (List Char)
  | none => none
  | some s => formatEpsValue s

/-- The pattern loop of `_parse_eps_with_regex`: on a regex match whose
formatted `group(1)` is truthy, return; otherwise continue with the next
pattern. -/
def parseEpsWithRegexAux : List KPat → List Char → Option (List Char × String × String)
  | [], _ => none
  | p :: ps, s =>
    match fallbackSearch p s with
    | some g1 =>
      match formatEpsValueOpt g1 with
      | some v =>
        if v = [] then parseEpsWithRegexAux ps s
        else some (v, "Regex", p.src)
      | none => parseEpsWithRegexAux ps s
    | none => parseEpsWithRegexAux ps s

/-- `_parse_eps_with_regex` on the flattened full text of a document. -/
def parseEpsWithRegex (fullText : List Char) : Option (List Char × String × String) :=
  parseEpsWithRegexAux allPats fullText

/-- A parsed document, as the two strategies see it: its tables and its
flattened full text (`' '.join(soup.get_text(strip=True).split())`). -/
structure Document : Type where
  tables : List Table
  fullText : List Char

/-- The per-document extraction pipeline of `parse_html_filing`: the table
strategy first, the text fallback only when it yields nothing. -/
def extractEps (d : Document) : Option (List Char × String × String) :=
  match parseEpsFromTables d.tables with
  | some r => some r
  | none => parseEpsWithRegex d.fullText

/-- `KEYWORD_FREQUENCY`, a `defaultdict(int)`: every key reads as its count,
absent keys as 0. -/
abbrev FreqTable : Type := String → Nat

/-- `KEYWORD_FREQUENCY[k] += 1`. -/
def freqBump (ft : FreqTable) (k : String) : FreqTable :=
  fun x => if x = k then ft x + 1 else ft x

/-- The success path of `parse_html_filing` for one document: run the
pipeline; on success bump the winning pattern's counter.  Returns the new
frequency table and the match result. -/
def processFiling (ft : FreqTable) (d : Document) :
    FreqTable × Option (List Char × String × String) :=
  match extractEps d with
  | some r => (freqBump ft r.2.2, some r)
  | none => (ft, none)

/-- The per-run loop of `main` over the documents, threading
`KEYWORD_FREQUENCY`. -/
def runDocs : FreqTable → List Document → FreqTable × List (Option (List Char × String × String))
  | ft, [] => (ft, [])
  | ft, d :: ds =>
    let p := processFiling ft d
    let q := runDocs p.1 ds
    (q.1, p.2 :: q.2)

/-- The `try/except` of `_parse_eps_from_tables`, with the body shallowly
embedded as an `Except`: a raised exception is caught and becomes the
no-result triple `(None, None, None)`. -/
def tableStrategyGuard
    (body : Except String (Option (List Char × String × String))) :
    Option (List Char × String × String) :=
  match body with
  | .ok r => r
  | .error _ => none

/-- The `try/except` of `parse_html_filing`: the per-document body (file
reading, HTML parsing, both strategies) embedded as an `Except`; an
exception anywhere in it is caught and mapped to `(filename, None)`. -/
def parseHtmlFilingGuard (filename : String)
    (body : Except String (Option (List Char))) : String × Option (List Char) :=
  match body with
  | .ok v => (filename, v)
  | .error _ => (filename, none)

theorem takeDigits_append_self (s : List Char) :
    (takeDigits s).1 ++ (takeDigits s).2 = s := by
  induction s with
  | nil => rfl
  | cons c cs ih =>
    by_cases h : c.isDigit <;> simp [takeDigits, h, ih]

theorem takeDigits_digits (s : List Char) : ∀ c ∈ (takeDigits s).1, c.isDigit := by
  induction s with
  | nil => simp [takeDigits]
  | cons c cs ih =>
    by_cases h : c.isDigit
    · simp only [takeDigits, h, if_true]
      intro x hx
      rcases List.mem_cons.mp hx with hx | hx
      · exact hx ▸ h
      · exact ih x hx
    · simp [takeDigits, h]

theorem takeDigits_append (d r : List Char) (hd : ∀ c ∈ d, c.isDigit)
    (hr : ∀ c cs, r = c :: cs → c.isDigit = false) :
    takeDigits (d ++ r) = (d, r) := by
  induction d with
  | nil =>
    cases r with
    | nil => rfl
    | cons c cs => simp [takeDigits, hr c cs rfl]
  | cons c d' ih =>
    have hc : c.isDigit := hd c (by simp)
    simp [takeDigits, hc, ih (fun x hx => hd x (by simp [hx]))]

theorem takeDigits_fst_ne_nil (c : Char) (t : List Char) (hc : c.isDigit) :
    (takeDigits (c :: t)).1 ≠ [] := by
  simp [takeDigits, hc]

theorem matchDecimalAt_shape {s m : List Char} (h : matchDecimalAt s = some m) :
    ∃ d1 d2, m = d1 ++ '.' :: d2 ∧ d1 ≠ [] ∧ d2 ≠ [] ∧
      (∀ c ∈ d1, c.isDigit) ∧ (∀ c ∈ d2, c.isDigit) := by
  unfold matchDecimalAt at h
  by_cases h1 : (takeDigits s).1 = []
  · simp [h1] at h
  · simp only [h1, if_false] at h
    cases hr : (takeDigits s).2 with
    | nil => rw [hr] at h; exact absurd h (by simp)
    | cons c r2 =>
      rw [hr] at h
      by_cases hc : c = '.'
      · subst hc
        by_cases h2 : (takeDigits r2).1 = []
        · simp [h2] at h
        · refine ⟨(takeDigits s).1, (takeDigits r2).1, ?_, h1, h2,
            takeDigits_digits s, takeDigits_digits r2⟩
          simp [h2] at h
          exact h.symm
      · simp [hc] at h

theorem matchDecimalAt_ne_none (d1 d2 r : List Char)
    (h1 : d1 ≠ []) (hd1 : ∀ c ∈ d1, c.isDigit)
    (h2 : d2 ≠ []) (hd2 : ∀ c ∈ d2, c.isDigit) :
    matchDecimalAt (d1 ++ '.' :: (d2 ++ r)) ≠ none := by
  have ht : takeDigits (d1 ++ '.' :: (d2 ++ r)) = (d1, '.' :: (d2 ++ r)) :=
    takeDigits_append d1 ('.' :: (d2 ++ r)) hd1 (by intro c cs hcs; cases hcs; rfl)
  unfold matchDecimalAt
  rw [ht]
  simp only [h1, if_false]
  cases d2 with
  | nil => exact absurd rfl h2
  | cons c t =>
    have hc : c.isDigit := hd2 c (by simp)
    have := takeDigits_fst_ne_nil c (t ++ r) hc
    simp only [List.cons_append]
    simp [this]

theorem matchDecimalAt_nil : matchDecimalAt [] = none := rfl

theorem findDecimal_cons (c : Char) (cs : List Char) :
    findDecimal (c :: cs) =
      match matchDecimalAt (c :: cs) with
      | some m => some m
      | none => findDecimal cs := rfl

theorem findDecimal_none_iff (s : List Char) :
    findDecimal s = none ↔ ∀ i, matchDecimalAt (s.drop i) = none := by
  induction s with
  | nil =>
    simp only [findDecimal, List.drop_nil, true_iff]
    intro _
    exact matchDecimalAt_nil
  | cons c cs ih =>
    rw [findDecimal_cons]
    cases hm : matchDecimalAt (c :: cs) with
    | some m =>
      simp only [false_iff, reduceCtorEq]
      intro h
      have := h 0
      rw [List.drop_zero] at this
      rw [hm] at this
      exact absurd this (by simp)
    | none =>
      simp only
      rw [ih]
      constructor
      · intro h i
        cases i with
        | zero => rw [List.drop_zero]; exact hm
        | succ j => exact h j
      · intro h j
        exact h (j + 1)

theorem findDecimal_spec (s m : List Char) :
    findDecimal s = some m ↔
      ∃ i, matchDecimalAt (s.drop i) = some m ∧
        ∀ j, j < i → matchDecimalAt (s.drop j) = none := by
  induction s with
  | nil =>
    simp only [findDecimal, List.drop_nil]
    constructor
    · intro h; exact absurd h (by simp)
    · rintro ⟨i, hi, -⟩
      rw [matchDecimalAt_nil] at hi
      exact absurd hi (by simp)
  | cons c cs ih =>
    rw [findDecimal_cons]
    cases hm : matchDecimalAt (c :: cs) with
    | some m' =>
      simp only [Option.some.injEq]
      constructor
      · intro h
        refine ⟨0, ?_, by omega⟩
        rw [List.drop_zero, hm, h]
      · rintro ⟨i, hi, hmin⟩
        cases i with
        | zero =>
          rw [List.drop_zero, hm] at hi
          exact (Option.some.injEq _ _ ▸ hi).symm ▸ rfl
        | succ i' =>
          have := hmin 0 (by omega)
          rw [List.drop_zero, hm] at this
          exact absurd this (by simp)
    | none =>
      simp only
      rw [ih]
      constructor
      · rintro ⟨i, hi, hmin⟩
        refine ⟨i + 1, hi, ?_⟩
        intro j hj
        cases j with
        | zero => rw [List.drop_zero]; exact hm
        | succ j' => exact hmin j' (by omega)
      · rintro ⟨i, hi, hmin⟩
        cases i with
        | zero =>
          rw [List.drop_zero, hm] at hi
          exact absurd hi (by simp)
        | succ i' =>
          exact ⟨i', hi, fun j hj => hmin (j + 1) (by omega)⟩

theorem findDecimal_ne_nil {s m : List Char} (h : findDecimal s = some m) : m ≠ [] := by
  obtain ⟨i, hi, -⟩ := (findDecimal_spec s m).mp h
  obtain ⟨d1, d2, hm, h1, -⟩ := matchDecimalAt_shape hi
  subst hm
  simp [h1]

/-- The leftmost `\d+\.\d+` match of the Normalizer, as a predicate: the
match occurs at offset `i` and nowhere earlier. -/
def FirstDecimal (s : List Char) (i : Nat) (m : List Char) : Prop :=
  matchDecimalAt (s.drop i) = some m ∧ ∀ j, j < i → matchDecimalAt (s.drop j) = none

instance (s : List Char) (i : Nat) (m : List Char) : Decidable (FirstDecimal s i m) :=
  inferInstanceAs (Decidable (_ ∧ _))

/-- C1 counterexample: on the input `"0.41 (est.)"` the Value Normalizer does
NOT return `"0.41"` — the trailing parenthesized annotation contains `'('`,
which the sign rule reads as a negative marker. -/
theorem c1_counterexample :
    formatEpsValue ("0.41 (est.)".data) ≠ some ("0.41".data) := by decide

/-- C1 (amended): the Value Normalizer applied to `"0.41 (est.)"` returns
`"-0.41"`: only the first matched numeric substring `0.41` is used, but the
`'('` of the trailing annotation `(est.)` marks the value negative, because
the sign rule tests for `'('` anywhere in the raw string. -/
theorem c1_amended :
    formatEpsValue ("0.41 (est.)".data) = some ("-0.41".data) := by decide

/-- C5: the Value Normalizer returns `none` exactly when no `\d+\.\d+`
substring is present; otherwise it returns the leftmost such match, prefixed
with `'-'` iff an opening parenthesis occurs anywhere in the input, and the
match is a nonempty digit run, a dot, and a nonempty digit run.  (It is a
pure function, hence has no side effects.) -/
theorem c5_normalizer (s : List Char) :
    (formatEpsValue s = none ↔ ∀ i, matchDecimalAt (s.drop i) = none) ∧
    (∀ i m, FirstDecimal s i m →
      formatEpsValue s = some (if '(' ∈ s then '-' :: m else m)) ∧
    (∀ v, formatEpsValue s = some v →
      ∃ i m, FirstDecimal s i m ∧ v = (if '(' ∈ s then '-' :: m else m) ∧
        ∃ d1 d2, m = d1 ++ '.' :: d2 ∧ d1 ≠ [] ∧ d2 ≠ [] ∧
          (∀ c ∈ d1, c.isDigit) ∧ (∀ c ∈ d2, c.isDigit)) := by
  refine ⟨?_, ?_, ?_⟩
  · constructor
    · intro h
      apply (findDecimal_none_iff s).mp
      unfold formatEpsValue at h
      by_cases hs : s = []
      · subst hs; rfl
      · simp only [hs, if_false] at h
        cases hf : findDecimal s with
        | none => rfl
        | some m => rw [hf] at h; exact absurd h (by simp)
    · intro h
      have hf : findDecimal s = none := (findDecimal_none_iff s).mpr h
      unfold formatEpsValue
      by_cases hs : s = [] <;> simp [hs, hf]
  · intro i m hfd
    have hf : findDecimal s = some m := (findDecimal_spec s m).mpr ⟨i, hfd.1, hfd.2⟩
    have hs : s ≠ [] := by
      rintro rfl
      have := hfd.1
      simp only [List.drop_nil] at this
      exact absurd this (by simp [matchDecimalAt, takeDigits])
    unfold formatEpsValue
    simp [hs, hf]
  · intro v h
    unfold formatEpsValue at h
    by_cases hs : s = []
    · simp [hs] at h
    · simp only [hs, if_false] at h
      cases hf : findDecimal s with
      | none => rw [hf] at h; exact absurd h (by simp)
      | some m =>
        rw [hf] at h
        obtain ⟨i, hi, hmin⟩ := (findDecimal_spec s m).mp hf
        refine ⟨i, m, ⟨hi, hmin⟩, ?_, matchDecimalAt_shape hi⟩
        simpa using h.symm

/-- C5 witness: the three spec examples, obtained from `c5_normalizer`. -/
theorem c5_witness :
    formatEpsValue ("$0.41".data) = some ("0.41".data) ∧
    formatEpsValue ("(0.41)".data) = some ("-0.41".data) ∧
    formatEpsValue ("abc".data) = none := by
  refine ⟨?_, ?_, ?_⟩
  · have h := (c5_normalizer ("$0.41".data)).2.1 1 ("0.41".data) (by decide)
    rwa [if_neg (by decide)] at h
  · have h := (c5_normalizer ("(0.41)".data)).2.1 1 ("0.41".data) (by decide)
    rwa [if_pos (by decide)] at h
  · refine ((c5_normalizer ("abc".data)).1).mpr ?_
    intro i
    rcases Nat.lt_or_ge i 3 with h | h
    · interval_cases i <;> decide
    · rw [List.drop_eq_nil_of_le (le_trans (by decide) h)]
      exact matchDecimalAt_nil

theorem maxByYear_year_le (ps : List YearPos) :
    ∀ p : YearPos, p.year ≤ (maxByYear p ps).year := by
  induction ps with
  | nil => intro p; exact le_refl _
  | cons q qs ih =>
    intro p
    unfold maxByYear
    by_cases h : q.year > p.year
    · simp only [h, if_true]
      exact le_trans (le_of_lt h) (ih q)
    · simp only [h, if_false]
      exact ih p

theorem minByYear_year_le (ps : List YearPos) :
    ∀ p : YearPos, (minByYear p ps).year ≤ p.year := by
  induction ps with
  | nil => intro p; exact le_refl _
  | cons q qs ih =>
    intro p
    unfold minByYear
    by_cases h : q.year < p.year
    · simp only [h, if_true]
      exact le_trans (ih q) (le_of_lt h)
    · simp only [h, if_false]
      exact ih p

/-- `x` is the first element of `l` carrying the maximal year: `l` splits as
`l1 ++ x :: l2`, every year in `l` is at most `x`'s, and every year strictly
before `x` is strictly smaller. -/
def FirstWithMaxYear (l : List YearPos) (x : YearPos) : Prop :=
  ∃ l1 l2, l = l1 ++ x :: l2 ∧ (∀ q ∈ l, q.year ≤ x.year) ∧ ∀ q ∈ l1, q.year < x.year

/-- `x` is the first element of `l` carrying the minimal year. -/
def FirstWithMinYear (l : List YearPos) (x : YearPos) : Prop :=
  ∃ l1 l2, l = l1 ++ x :: l2 ∧ (∀ q ∈ l, x.year ≤ q.year) ∧ ∀ q ∈ l1, x.year < q.year

theorem maxByYear_first (ps : List YearPos) :
    ∀ p : YearPos, FirstWithMaxYear (p :: ps) (maxByYear p ps) := by
  induction ps with
  | nil =>
    intro p
    exact ⟨[], [], rfl, by simp [maxByYear], by simp⟩
  | cons q qs ih =>
    intro p
    unfold maxByYear
    by_cases h : q.year > p.year
    · simp only [h, if_true]
      obtain ⟨m1, m2, hsplit, hub, hstrict⟩ := ih q
      refine ⟨p :: m1, m2, ?_, ?_, ?_⟩
      · rw [List.cons_append, ← hsplit]
      · intro r hr
        rcases List.mem_cons.mp hr with rfl | hr
        · exact le_trans (le_of_lt h) (hub q (by simp))
        · exact hub r hr
      · intro r hr
        rcases List.mem_cons.mp hr with rfl | hr
        · exact lt_of_lt_of_le h (hub q (by simp))
        · exact hstrict r hr
    · simp only [h, if_false]
      obtain ⟨m1, m2, hsplit, hub, hstrict⟩ := ih p
      have hub2 : ∀ r ∈ p :: q :: qs, r.year ≤ (maxByYear p qs).year := by
        intro r hr
        rcases List.mem_cons.mp hr with heq | hr
        · rw [heq]
          exact hub p (by simp)
        · rcases List.mem_cons.mp hr with heq | hr
          · rw [heq]
            exact le_trans (Nat.le_of_not_lt h) (hub p (by simp))
          · exact hub r (List.mem_cons_of_mem p hr)
      cases m1 with
      | nil =>
        simp only [List.nil_append] at hsplit
        have hM : maxByYear p qs = p := by
          injection hsplit with h1 h2
          exact h1.symm
        refine ⟨[], q :: qs, ?_, hub2, by simp⟩
        rw [hM]
        simp
      | cons p' m1' =>
        simp only [List.cons_append] at hsplit
        injection hsplit with hp hrest
        subst hp
        refine ⟨p :: q :: m1', m2, ?_, hub2, ?_⟩
        · rw [List.cons_append, List.cons_append, ← hrest]
        · have hpstrict : p.year < (maxByYear p qs).year := hstrict p (by simp)
          intro r hr
          rcases List.mem_cons.mp hr with rfl | hr
          · exact hpstrict
          · rcases List.mem_cons.mp hr with rfl | hr
            · exact lt_of_le_of_lt (Nat.le_of_not_lt h) hpstrict
            · exact hstrict r (by simp [hr])

theorem minByYear_first (ps : List YearPos) :
    ∀ p : YearPos, FirstWithMinYear (p :: ps) (minByYear p ps) := by
  induction ps with
  | nil =>
    intro p
    exact ⟨[], [], rfl, by simp [minByYear], by simp⟩
  | cons q qs ih =>
    intro p
    unfold minByYear
    by_cases h : q.year < p.year
    · simp only [h, if_true]
      obtain ⟨m1, m2, hsplit, hub, hstrict⟩ := ih q
      refine ⟨p :: m1, m2, ?_, ?_, ?_⟩
      · rw [List.cons_append, ← hsplit]
      · intro r hr
        rcases List.mem_cons.mp hr with rfl | hr
        · exact le_trans (hub q (by simp)) (le_of_lt h)
        · exact hub r hr
      · intro r hr
        rcases List.mem_cons.mp hr with rfl | hr
        · exact lt_of_le_of_lt (hub q (by simp)) h
        · exact hstrict r hr
    · simp only [h, if_false]
      obtain ⟨m1, m2, hsplit, hub, hstrict⟩ := ih p
      have hub2 : ∀ r ∈ p :: q :: qs, (minByYear p qs).year ≤ r.year := by
        intro r hr
        rcases List.mem_cons.mp hr with heq | hr
        · rw [heq]
          exact hub p (by simp)
        · rcases List.mem_cons.mp hr with heq | hr
          · rw [heq]
            exact le_trans (hub p (by simp)) (Nat.le_of_not_lt h)
          · exact hub r (List.mem_cons_of_mem p hr)
      cases m1 with
      | nil =>
        simp only [List.nil_append] at hsplit
        have hM : minByYear p qs = p := by
          injection hsplit with h1 h2
          exact h1.symm
        refine ⟨[], q :: qs, ?_, hub2, by simp⟩
        rw [hM]
        simp
      | cons p' m1' =>
        simp only [List.cons_append] at hsplit
        injection hsplit with hp hrest
        subst hp
        refine ⟨p :: q :: m1', m2, ?_, hub2, ?_⟩
        · rw [List.cons_append, List.cons_append, ← hrest]
        · have hpstrict : (minByYear p qs).year < p.year := hstrict p (by simp)
          intro r hr
          rcases List.mem_cons.mp hr with rfl | hr
          · exact hpstrict
          · rcases List.mem_cons.mp hr with rfl | hr
            · exact lt_of_lt_of_le hpstrict (Nat.le_of_not_lt h)
            · exact hstrict r (by simp [hr])

theorem firstWithMaxYear_unique {l : List YearPos} {x y : YearPos}
    (hx : FirstWithMaxYear l x) (hy : FirstWithMaxYear l y) : x = y := by
  obtain ⟨l1, l2, he, hub, hst⟩ := hx
  obtain ⟨k1, k2, he', hub', hst'⟩ := hy
  have hxmem : x ∈ l := by rw [he]; simp
  have hymem : y ∈ l := by rw [he']; simp
  have heq : l1 ++ x :: l2 = k1 ++ y :: k2 := he.symm.trans he'
  rcases List.append_eq_append_iff.mp heq with ⟨a, ha1, ha2⟩ | ⟨a, ha1, ha2⟩
  · cases a with
    | nil =>
      simp only [List.nil_append] at ha2
      exact (List.cons_eq_cons.mp ha2).1
    | cons z a' =>
      simp only [List.cons_append] at ha2
      injection ha2 with h1 _
      subst h1
      have hxk1 : x ∈ k1 := by rw [ha1]; simp
      exact absurd (hst' x hxk1) (Nat.not_lt.mpr (hub y hymem))
  · cases a with
    | nil =>
      simp only [List.nil_append] at ha2
      exact ((List.cons_eq_cons.mp ha2).1).symm
    | cons z a' =>
      simp only [List.cons_append] at ha2
      injection ha2 with h1 _
      subst h1
      have hyl1 : y ∈ l1 := by rw [ha1]; simp
      exact absurd (hst y hyl1) (Nat.not_lt.mpr (hub' x hxmem))

theorem firstWithMinYear_unique {l : List YearPos} {x y : YearPos}
    (hx : FirstWithMinYear l x) (hy : FirstWithMinYear l y) : x = y := by
  obtain ⟨l1, l2, he, hub, hst⟩ := hx
  obtain ⟨k1, k2, he', hub', hst'⟩ := hy
  have hxmem : x ∈ l := by rw [he]; simp
  have hymem : y ∈ l := by rw [he']; simp
  have heq : l1 ++ x :: l2 = k1 ++ y :: k2 := he.symm.trans he'
  rcases List.append_eq_append_iff.mp heq with ⟨a, ha1, ha2⟩ | ⟨a, ha1, ha2⟩
  · cases a with
    | nil =>
      simp only [List.nil_append] at ha2
      exact (List.cons_eq_cons.mp ha2).1
    | cons z a' =>
      simp only [List.cons_append] at ha2
      injection ha2 with h1 _
      subst h1
      have hxk1 : x ∈ k1 := by rw [ha1]; simp
      exact absurd (hst' x hxk1) (Nat.not_lt.mpr (hub y hymem))
  · cases a with
    | nil =>
      simp only [List.nil_append] at ha2
      exact ((List.cons_eq_cons.mp ha2).1).symm
    | cons z a' =>
      simp only [List.cons_append] at ha2
      injection ha2 with h1 _
      subst h1
      have hyl1 : y ∈ l1 := by rw [ha1]; simp
      exact absurd (hst y hyl1) (Nat.not_lt.mpr (hub' x hxmem))

theorem getSearchDirection_cons (t : List (List (List Char))) (p : YearPos)
    (ps : List YearPos) (h : tableYearPositions t = p :: ps) :
    getSearchDirection t =
      if (maxByYear p ps).index > (minByYear p ps).index then Direction.rightToLeft
      else Direction.leftToRight := by
  unfold getSearchDirection
  rw [h]

theorem maxByYear_of_le (p : YearPos) :
    ∀ ps : List YearPos, (∀ q ∈ ps, q.year ≤ p.year) → maxByYear p ps = p := by
  intro ps
  induction ps with
  | nil => intro _; rfl
  | cons q qs ih =>
    intro hle
    unfold maxByYear
    rw [if_neg (Nat.not_lt.mpr (hle q (by simp)))]
    exact ih fun r hr => hle r (List.mem_cons_of_mem q hr)

theorem minByYear_of_ge (p : YearPos) :
    ∀ ps : List YearPos, (∀ q ∈ ps, p.year ≤ q.year) → minByYear p ps = p := by
  intro ps
  induction ps with
  | nil => intro _; rfl
  | cons q qs ih =>
    intro hge
    unfold minByYear
    rw [if_neg (Nat.not_lt.mpr (hge q (by simp)))]
    exact ih fun r hr => hge r (List.mem_cons_of_mem q hr)

/-- C4: the Column Direction Inferencer defaults to left-to-right when no
year token `\b(20\d{2})\b` is recorded from the first 5 scanned rows;
otherwise it returns right-to-left iff the column index recorded for the
(first) maximum year exceeds the column index recorded for the (first)
minimum year. -/
theorem c4_direction (t : List (List (List Char))) :
    (tableYearPositions t = [] → getSearchDirection t = Direction.leftToRight) ∧
    (∀ pm qm, FirstWithMaxYear (tableYearPositions t) pm →
      FirstWithMinYear (tableYearPositions t) qm →
      (getSearchDirection t = Direction.rightToLeft ↔ qm.index < pm.index)) := by
  constructor
  · intro h
    unfold getSearchDirection
    rw [h]
  · intro pm qm hpm hqm
    cases hys : tableYearPositions t with
    | nil =>
      rw [hys] at hpm
      obtain ⟨l1, l2, he, -, -⟩ := hpm
      exact absurd he.symm (by simp)
    | cons p ps =>
      rw [hys] at hpm hqm
      have hmax : pm = maxByYear p ps := firstWithMaxYear_unique hpm (maxByYear_first ps p)
      have hmin : qm = minByYear p ps := firstWithMinYear_unique hqm (minByYear_first ps p)
      subst hmax hmin
      rw [getSearchDirection_cons t p ps hys]
      by_cases h : (maxByYear p ps).index > (minByYear p ps).index
      · simp [h]
      · simp [h]

/-- C4 witness: the spec's three header examples, via `c4_direction`. -/
theorem c4_witness :
    getSearchDirection [[("2020".data), ("2021".data)]] = Direction.rightToLeft ∧
    getSearchDirection [[("2021".data), ("2020".data)]] = Direction.leftToRight ∧
    getSearchDirection [[("Three months ended".data)]] = Direction.leftToRight := by
  refine ⟨?_, ?_, ?_⟩
  · exact ((c4_direction _).2 ⟨2021, 1⟩ ⟨2020, 0⟩
      ⟨[⟨2020, 0⟩], [], by decide, by decide, by decide⟩
      ⟨[], [⟨2021, 1⟩], by decide, by decide, by decide⟩).mpr (by decide)
  · have hiff := (c4_direction [[("2021".data), ("2020".data)]]).2 ⟨2021, 0⟩ ⟨2020, 1⟩
      ⟨[], [⟨2020, 1⟩], by decide, by decide, by decide⟩
      ⟨[⟨2021, 0⟩], [], by decide, by decide, by decide⟩
    cases hd : getSearchDirection [[("2021".data), ("2020".data)]] with
    | leftToRight => rfl
    | rightToLeft => exact absurd (hiff.mp hd) (by decide)
  · exact (c4_direction _).1 (by decide)

/-- C10: when every recorded year token of a table carries the same year
value (including the single-token case), the max-year and min-year
selections both pick the first recorded entry, their column indices agree,
and the inferred direction is left-to-right. -/
theorem c10_tie (t : List (List (List Char))) (p : YearPos) (ps : List YearPos)
    (h : tableYearPositions t = p :: ps)
    (hall : ∀ q ∈ tableYearPositions t, q.year = p.year) :
    maxByYear p ps = p ∧ minByYear p ps = p ∧
      getSearchDirection t = Direction.leftToRight := by
  have heq : ∀ q ∈ ps, q.year = p.year := by
    intro q hq
    exact hall q (by rw [h]; simp [hq])
  have hmax : maxByYear p ps = p :=
    maxByYear_of_le p ps fun q hq => le_of_eq (heq q hq)
  have hmin : minByYear p ps = p :=
    minByYear_of_ge p ps fun q hq => ge_of_eq (heq q hq)
  refine ⟨hmax, hmin, ?_⟩
  rw [getSearchDirection_cons t p ps h, hmax, hmin]
  simp

/-- C10 witness: a table whose two year tokens are both 2020 at columns 0
and 1 resolves to the first entry on both selections and to left-to-right. -/
theorem c10_witness :
    maxByYear ⟨2020, 0⟩ [⟨2020, 1⟩] = ⟨2020, 0⟩ ∧
    minByYear ⟨2020, 0⟩ [⟨2020, 1⟩] = ⟨2020, 0⟩ ∧
    getSearchDirection [[("2020".data), ("2020".data)]] = Direction.leftToRight :=
  c10_tie [[("2020".data), ("2020".data)]] ⟨2020, 0⟩ [⟨2020, 1⟩] (by decide) (by decide)

theorem epsOptChar_suffix (c : Char) (s : List Char) : epsOptChar c s <:+ s := by
  unfold epsOptChar
  cases s with
  | nil => exact List.suffix_refl _
  | cons d t =>
    by_cases h : d = c
    · simp only [h, if_true]
      exact List.suffix_cons c t
    · simp only [h, if_false]
      exact List.suffix_refl _

theorem epsStripped_suffix (s : List Char) : epsStripped s <:+ s :=
  List.IsSuffix.trans
    (List.dropWhile_suffix isSpaceChar)
    (List.IsSuffix.trans (epsOptChar_suffix '$' _)
      (List.IsSuffix.trans (List.dropWhile_suffix isSpaceChar) (epsOptChar_suffix '(' s)))

theorem epsValueMatch_decimal {t : List Char} (h : epsValueMatch t = true) :
    matchDecimalAt (epsStripped t) ≠ none := by
  unfold epsValueMatch at h
  unfold matchDecimalAt
  by_cases h1 : (takeDigits (epsStripped t)).1 = []
  · rw [if_pos h1] at h
    exact absurd h (by simp)
  · rw [if_neg h1] at h
    rw [if_neg h1]
    cases hr : (takeDigits (epsStripped t)).2 with
    | nil =>
      rw [hr] at h
      exact absurd h (by simp)
    | cons c r2 =>
      rw [hr] at h
      by_cases hc : c = '.'
      · subst hc
        by_cases h2 : (takeDigits r2).1 = []
        · simp [h2] at h
        · simp [h2]
      · simp [hc] at h

/-- A cell text that matches `EPS_VALUE_PATTERN` makes `_format_eps_value`
return a truthy (non-empty) value. -/
theorem epsValueMatch_format {t : List Char} (h : epsValueMatch t = true) :
    ∃ v, formatEpsValue t = some v ∧ v ≠ [] := by
  obtain ⟨u, hu⟩ := epsStripped_suffix t
  have hi : matchDecimalAt (t.drop u.length) ≠ none := by
    rw [← hu, List.drop_left]
    exact epsValueMatch_decimal h
  have hf : findDecimal t ≠ none := by
    intro hcon
    exact hi ((findDecimal_none_iff t).mp hcon u.length)
  cases hfd : findDecimal t with
  | none => exact absurd hfd hf
  | some m =>
    have hm : m ≠ [] := findDecimal_ne_nil hfd
    have ht : t ≠ [] := by
      rintro rfl
      exact hf rfl
    refine ⟨if '(' ∈ t then '-' :: m else m, ?_, ?_⟩
    · unfold formatEpsValue
      rw [if_neg ht, hfd]
    · by_cases hp : '(' ∈ t <;> simp [hp, hm]

/-- C6: the Row/Cell Value Locator traverses the cells in list order,
reversed iff the direction is right-to-left, and returns the Normalizer's
output for the first cell whose stripped text matches `EPS_VALUE_PATTERN`
(`none` when no cell matches; label-plus-number cells fail the strict
shape).  In particular `["Basic EPS", "(0.41)", "0.55"]` searched
right-to-left yields `"0.55"`. -/
theorem c6_locator :
    (∀ (cells : List (List Char)) (dir : Direction),
      findValueInRow cells dir =
        (if dir = Direction.rightToLeft then cells.reverse else cells).findSome?
          fun c => if epsValueMatch (pyStrip c) then formatEpsValue (pyStrip c) else none) ∧
    findValueInRow ["Basic EPS".data, "(0.41)".data, "0.55".data] Direction.rightToLeft
      = some ("0.55".data) := by
  constructor
  · intro cells dir
    unfold findValueInRow
    generalize (if dir = Direction.rightToLeft then cells.reverse else cells) = l
    induction l with
    | nil => rfl
    | cons c cs ih =>
      rw [List.findSome?_cons]
      by_cases h : epsValueMatch (pyStrip c)
      · obtain ⟨v, hv, hne⟩ := epsValueMatch_format h
        unfold findValueInRowAux
        simp [h, hv, hne]
      · unfold findValueInRowAux
        simp [h, ih]
  · decide

theorem scanPats_cons (p : KPat) (ps : List KPat) (tables : List Table) :
    scanPats (p :: ps) tables =
      match scanTables p tables with
      | some r => some (r.1, r.2, p.src)
      | none => scanPats ps tables := rfl

theorem scanPats_append (a b : List KPat) (tables : List Table) :
    scanPats (a ++ b) tables =
      match scanPats a tables with
      | some r => some r
      | none => scanPats b tables := by
  induction a with
  | nil => rfl
  | cons p ps ih =>
    rw [List.cons_append, scanPats_cons, scanPats_cons]
    cases h : scanTables p tables with
    | some r => rfl
    | none => exact ih

/-- C3: tiers are searched in the fixed order basic, diluted, generic —
every basic pattern is tried over all tables and rows before any diluted
pattern, and every diluted pattern before any generic one.  Whenever the
basic tier alone yields a result, the whole table strategy returns exactly
that result (so a document with both a basic and a diluted row returns the
basic value regardless of their order); likewise diluted beats generic. -/
theorem c3_priority (tables : List Table) :
    (∀ r, scanPats basicPats tables = some r → parseEpsFromTables tables = some r) ∧
    (scanPats basicPats tables = none →
      ∀ r, scanPats dilutedPats tables = some r → parseEpsFromTables tables = some r) ∧
    (scanPats basicPats tables = none → scanPats dilutedPats tables = none →
      parseEpsFromTables tables = scanPats genericPats tables) := by
  have hsplit : parseEpsFromTables tables =
      match scanPats basicPats tables with
      | some r => some r
      | none =>
        match scanPats dilutedPats tables with
        | some r => some r
        | none => scanPats genericPats tables := by
    show scanPats (basicPats ++ (dilutedPats ++ genericPats)) tables = _
    rw [scanPats_append]
    cases scanPats basicPats tables with
    | some r => rfl
    | none => rw [scanPats_append]
  refine ⟨?_, ?_, ?_⟩
  · intro r h
    rw [hsplit, h]
  · intro h r h2
    rw [hsplit, h, h2]
  · intro h h2
    rw [hsplit, h, h2]

/-- C3 witness: a document holding both a basic row (0.41) and a diluted row
(0.38) returns 0.41 in either document order, via `c3_priority`. -/
theorem c3_witness :
    parseEpsFromTables
      [[["Basic earnings per share".data, "0.41".data],
        ["Diluted earnings per share".data, "0.38".data]]]
      = some ("0.41".data, "Table (L-R Search)", "basic earnings per (common )?share") ∧
    parseEpsFromTables
      [[["Diluted earnings per share".data, "0.38".data],
        ["Basic earnings per share".data, "0.41".data]]]
      = some ("0.41".data, "Table (L-R Search)", "basic earnings per (common )?share") :=
  ⟨(c3_priority _).1 _ (by decide), (c3_priority _).1 _ (by decide)⟩

/-- C7: the `try/except` wrappers, with the fallible bodies embedded as
`Except` values.  Any exception raised during table traversal becomes the
no-result triple inside `_parse_eps_from_tables`, and any exception in the
per-document body becomes `(filename, absent)` at the `parse_html_filing`
boundary; the orchestrator is total, so no per-document exception can
propagate and halt the run. -/
theorem c7_exception_containment :
    (∀ e : String, tableStrategyGuard (Except.error e) = none) ∧
    (∀ r, tableStrategyGuard (Except.ok r) = r) ∧
    (∀ (fn e : String), parseHtmlFilingGuard fn (Except.error e) = (fn, none)) ∧
    (∀ (fn : String) v, parseHtmlFilingGuard fn (Except.ok v) = (fn, v)) ∧
    (∀ (fn : String) body, (parseHtmlFilingGuard fn body).1 = fn) := by
  refine ⟨fun _ => rfl, fun _ => rfl, fun _ _ => rfl, fun _ _ => rfl, ?_⟩
  intro fn body
  cases body <;> rfl

theorem freqBump_le (g : FreqTable) (p k : String) : g k ≤ freqBump g p k := by
  unfold freqBump
  by_cases h : k = p
  · subst h
    simp
  · simp [h]

theorem processFiling_fst_le (g : FreqTable) (d : Document) (k : String) :
    g k ≤ (processFiling g d).1 k := by
  unfold processFiling
  cases extractEps d with
  | none => exact le_refl _
  | some r => exact freqBump_le g r.2.2 k

/-- C8: processing one document bumps the Keyword Frequency Table entry of
the winning pattern by exactly one on success (all other entries unchanged),
leaves the table entirely unchanged when extraction finds nothing, and over
a whole run no count ever decreases. -/
theorem c8_frequency (ft : FreqTable) (d : Document) :
    (∀ v m p, extractEps d = some (v, m, p) →
      (processFiling ft d).1 p = ft p + 1 ∧
      ∀ q, q ≠ p → (processFiling ft d).1 q = ft q) ∧
    (extractEps d = none → (processFiling ft d).1 = ft) ∧
    (∀ (ds : List Document) (k : String), ft k ≤ (runDocs ft ds).1 k) := by
  refine ⟨?_, ?_, ?_⟩
  · intro v m p h
    unfold processFiling
    rw [h]
    constructor
    · simp [freqBump]
    · intro q hq
      simp [freqBump, hq]
  · intro h
    unfold processFiling
    rw [h]
  · have mono : ∀ (ds : List Document) (g : FreqTable) (k : String),
        g k ≤ (runDocs g ds).1 k := by
      intro ds
      induction ds with
      | nil =>
        intro g k
        exact le_refl _
      | cons d' ds' ih =>
        intro g k
        show g k ≤ (runDocs (processFiling g d').1 ds').1 k
        exact le_trans (processFiling_fst_le g d' k) (ih (processFiling g d').1 k)
    intro ds k
    exact mono ds ft k

/-- A document whose only table holds a basic-EPS row with value 0.41. -/
def docBasic : Document :=
  ⟨[[["Basic earnings per share".data, "0.41".data]]], []⟩

/-- A document with no tables and no EPS-like content at all. -/
def docEmpty : Document := ⟨[], "nothing to see here".data⟩

/-- C8 witness: on `docBasic` the winning pattern's count goes from 0 to 1
and an unrelated pattern's count stays 0; on `docEmpty` the table is
untouched. -/
theorem c8_witness :
    (processFiling (fun _ => 0) docBasic).1 "basic earnings per (common )?share" = 1 ∧
    (processFiling (fun _ => 0) docBasic).1 "\\bbasic\\b" = 0 ∧
    (processFiling (fun _ => 0) docEmpty).1 = (fun _ => 0 : FreqTable) := by
  refine ⟨?_, ?_, ?_⟩
  · exact ((c8_frequency (fun _ => 0) docBasic).1 ("0.41".data) "Table (L-R Search)"
      "basic earnings per (common )?share" (by decide)).1
  · exact ((c8_frequency (fun _ => 0) docBasic).1 ("0.41".data) "Table (L-R Search)"
      "basic earnings per (common )?share" (by decide)).2 "\\bbasic\\b" (by decide)
  · exact (c8_frequency (fun _ => 0) docEmpty).2.1 (by decide)

/-- C9: extraction is deterministic and independent of the Keyword Frequency
Table: the result of processing a document does not depend on the table's
current contents, and re-running extraction on the identical document after
the table update yields the identical (value, method, pattern) triple. -/
theorem c9_deterministic (ft ft' : FreqTable) (d : Document) :
    (processFiling ft d).2 = (processFiling ft' d).2 ∧
    (processFiling (processFiling ft d).1 d).2 = (processFiling ft d).2 := by
  constructor <;> (unfold processFiling; cases extractEps d <;> rfl)

theorem not_space_of_digit {c : Char} (h : c.isDigit = true) : isSpaceChar c = false := by
  unfold isSpaceChar
  by_contra hcon
  rw [Bool.not_eq_false] at hcon
  simp only [Bool.or_eq_true, decide_eq_true_eq] at hcon
  rcases hcon with ((((h1 | h1) | h1) | h1) | h1) | h1 <;>
    (subst h1; exact absurd h (by decide))

theorem tokenDollar_nil : tokenDollar [] = none := rfl

theorem tokenDollar_single (c : Char) : tokenDollar [c] = none := rfl

theorem tokenDollar_cons2 (c d : Char) (t : List Char) :
    tokenDollar (c :: d :: t) =
      if c = '$' then
        if isSpaceChar d then (numClose t).map fun n => c :: d :: n
        else (numClose (d :: t)).map fun n => c :: n
      else none := rfl

theorem captureToken_cons (c : Char) (s1 : List Char) :
    captureToken (c :: s1) =
      if c = '(' then (tokenDollar s1).map fun t => c :: t
      else tokenDollar (c :: s1) := rfl

theorem formatEpsValue_truthy {t : List Char} (h : findDecimal t ≠ none) :
    ∃ v, formatEpsValue t = some v ∧ v ≠ [] := by
  cases hfd : findDecimal t with
  | none => exact absurd hfd h
  | some m =>
    have hm : m ≠ [] := findDecimal_ne_nil hfd
    have ht : t ≠ [] := by
      rintro rfl
      exact h rfl
    refine ⟨if '(' ∈ t then '-' :: m else m, ?_, ?_⟩
    · unfold formatEpsValue
      rw [if_neg ht, hfd]
    · by_cases hp : '(' ∈ t <;> simp [hp, hm]

theorem findDecimal_ne_none_sub (u d1 d2 r : List Char)
    (hd1 : d1 ≠ []) (hd1d : ∀ c ∈ d1, c.isDigit)
    (hd2 : d2 ≠ []) (hd2d : ∀ c ∈ d2, c.isDigit) :
    findDecimal (u ++ (d1 ++ '.' :: (d2 ++ r))) ≠ none := by
  intro hcon
  have hnone := (findDecimal_none_iff _).mp hcon u.length
  rw [List.drop_left] at hnone
  exact matchDecimalAt_ne_none d1 d2 r hd1 hd1d hd2 hd2d hnone

theorem numClose_ne_none (d1 d2 v : List Char)
    (hd1 : d1 ≠ []) (hd1d : ∀ c ∈ d1, c.isDigit)
    (hd2 : d2 ≠ []) (hd2d : ∀ c ∈ d2, c.isDigit) :
    numClose (d1 ++ '.' :: (d2 ++ v)) ≠ none := by
  have ht : takeDigits (d1 ++ '.' :: (d2 ++ v)) = (d1, '.' :: (d2 ++ v)) :=
    takeDigits_append d1 ('.' :: (d2 ++ v)) hd1d (by intro c cs h; cases h; rfl)
  have h1 : (takeDigits (d1 ++ '.' :: (d2 ++ v))).1 = d1 := by rw [ht]
  have h2 : (takeDigits (d1 ++ '.' :: (d2 ++ v))).2 = '.' :: (d2 ++ v) := by rw [ht]
  unfold numClose
  rw [h1, h2]
  cases d2 with
  | nil => exact absurd rfl hd2
  | cons e t =>
    have he : e.isDigit := hd2d e (by simp)
    have hne := takeDigits_fst_ne_nil e (t ++ v) he
    simp [hd1, hne]

theorem numClose_shape {s m : List Char} (h : numClose s = some m) :
    ∃ d1 d2 r, m = d1 ++ '.' :: (d2 ++ r) ∧ d1 ≠ [] ∧ (∀ c ∈ d1, c.isDigit) ∧
      d2 ≠ [] ∧ (∀ c ∈ d2, c.isDigit) := by
  unfold numClose at h
  by_cases h1 : (takeDigits s).1 = []
  · simp [h1] at h
  · rw [if_neg h1] at h
    cases hr : (takeDigits s).2 with
    | nil =>
      rw [hr] at h
      exact absurd h (by simp)
    | cons c r2 =>
      rw [hr] at h
      by_cases hc : c = '.'
      · subst hc
        by_cases h2 : (takeDigits r2).1 = []
        · simp [h2] at h
        · refine ⟨(takeDigits s).1, (takeDigits r2).1, closeParen (takeDigits r2).2, ?_, h1,
            takeDigits_digits s, h2, takeDigits_digits r2⟩
          simp [h2] at h
          exact h.symm
      · simp [hc] at h

theorem tokenDollar_shape {s t : List Char} (h : tokenDollar s = some t) :
    ∃ u d1 d2 r, t = u ++ (d1 ++ '.' :: (d2 ++ r)) ∧ d1 ≠ [] ∧ (∀ c ∈ d1, c.isDigit) ∧
      d2 ≠ [] ∧ (∀ c ∈ d2, c.isDigit) := by
  cases s with
  | nil => exact absurd h (by rw [tokenDollar_nil]; simp)
  | cons c s1 =>
    cases s1 with
    | nil => exact absurd h (by rw [tokenDollar_single]; simp)
    | cons d ttl =>
      rw [tokenDollar_cons2] at h
      by_cases hc : c = '$'
      · rw [if_pos hc] at h
        by_cases hd : isSpaceChar d
        · rw [if_pos hd] at h
          obtain ⟨n, hn, hnt⟩ := Option.map_eq_some'.mp h
          obtain ⟨d1, d2, r, hm, hd1, hd1d, hd2, hd2d⟩ := numClose_shape hn
          exact ⟨[c, d], d1, d2, r, by rw [← hnt, hm]; rfl, hd1, hd1d, hd2, hd2d⟩
        · rw [if_neg hd] at h
          obtain ⟨n, hn, hnt⟩ := Option.map_eq_some'.mp h
          obtain ⟨d1, d2, r, hm, hd1, hd1d, hd2, hd2d⟩ := numClose_shape hn
          exact ⟨[c], d1, d2, r, by rw [← hnt, hm]; rfl, hd1, hd1d, hd2, hd2d⟩
      · rw [if_neg hc] at h
        exact absurd h (by simp)

theorem captureToken_shape {s t : List Char} (h : captureToken s = some t) :
    ∃ u d1 d2 r, t = u ++ (d1 ++ '.' :: (d2 ++ r)) ∧ d1 ≠ [] ∧ (∀ c ∈ d1, c.isDigit) ∧
      d2 ≠ [] ∧ (∀ c ∈ d2, c.isDigit) := by
  cases s with
  | nil => exact absurd h (by simp [captureToken])
  | cons c s1 =>
    rw [captureToken_cons] at h
    by_cases hc : c = '('
    · rw [if_pos hc] at h
      obtain ⟨n, hn, hnt⟩ := Option.map_eq_some'.mp h
      obtain ⟨u, d1, d2, r, hm, hd1, hd1d, hd2, hd2d⟩ := tokenDollar_shape hn
      exact ⟨c :: u, d1, d2, r, by rw [← hnt, hm]; rfl, hd1, hd1d, hd2, hd2d⟩
    · rw [if_neg hc] at h
      exact tokenDollar_shape h

/-- A captured token always contains a `\d+\.\d+` substring, so the
Normalizer returns a truthy value on it. -/
theorem captureToken_format {s t : List Char} (h : captureToken s = some t) :
    ∃ v, formatEpsValue t = some v ∧ v ≠ [] := by
  obtain ⟨u, d1, d2, r, hm, hd1, hd1d, hd2, hd2d⟩ := captureToken_shape h
  subst hm
  exact formatEpsValue_truthy (findDecimal_ne_none_sub u d1 d2 r hd1 hd1d hd2 hd2d)

theorem captureToken_ne_none (d1 d2 v : List Char)
    (hd1 : d1 ≠ []) (hd1d : ∀ c ∈ d1, c.isDigit)
    (hd2 : d2 ≠ []) (hd2d : ∀ c ∈ d2, c.isDigit) :
    captureToken ('$' :: (d1 ++ '.' :: (d2 ++ v))) ≠ none := by
  cases d1 with
  | nil => exact absurd rfl hd1
  | cons a t1 =>
    have ha : a.isDigit := hd1d a (by simp)
    have hs := not_space_of_digit ha
    have hnc : numClose (a :: (t1 ++ '.' :: (d2 ++ v))) ≠ none := by
      have := numClose_ne_none (a :: t1) d2 v (by simp) hd1d hd2 hd2d
      rwa [List.cons_append] at this
    simp only [List.cons_append]
    rw [captureToken_cons, tokenDollar_cons2]
    simp [hs, hnc]

theorem gapTok_zero (s : List Char) : gapTok 0 s = captureToken s := rfl

theorem gapTok_succ_nil (m : Nat) : gapTok (Nat.succ m) [] = captureToken [] := rfl

theorem gapTok_succ_cons (m : Nat) (c : Char) (cs : List Char) :
    gapTok (Nat.succ m) (c :: cs) =
      match captureToken (c :: cs) with
      | some t => some t
      | none => if c = '\n' then none else gapTok m cs := rfl

theorem gapTok_capture_some (n : Nat) (s t : List Char) (h : captureToken s = some t) :
    gapTok n s = some t := by
  cases n with
  | zero => rw [gapTok_zero, h]
  | succ m =>
    cases s with
    | nil => rw [gapTok_succ_nil, h]
    | cons c cs => rw [gapTok_succ_cons, h]

theorem gapTok_zero_none (s : List Char) (h : captureToken s = none) :
    gapTok 0 s = none := by
  rw [gapTok_zero, h]

theorem gapTok_succ_none (m : Nat) (c : Char) (cs : List Char)
    (h : captureToken (c :: cs) = none) :
    gapTok (Nat.succ m) (c :: cs) = if c = '\n' then none else gapTok m cs := by
  rw [gapTok_succ_cons, h]

theorem gapTok_ne_none (rest : List Char) (hcap : captureToken rest ≠ none) :
    ∀ (g : List Char) (n : Nat), g.length ≤ n → (∀ c ∈ g, c ≠ '\n') →
      gapTok n (g ++ rest) ≠ none := by
  intro g
  induction g with
  | nil =>
    intro n _ _
    rw [List.nil_append]
    cases hc : captureToken rest with
    | some t =>
      rw [gapTok_capture_some n rest t hc]
      simp
    | none => exact absurd hc hcap
  | cons c g2 ih =>
    intro n hlen hnl
    rw [List.cons_append]
    cases hc : captureToken (c :: (g2 ++ rest)) with
    | some t =>
      rw [gapTok_capture_some n _ t hc]
      simp
    | none =>
      cases n with
      | zero => simp at hlen
      | succ m =>
        rw [gapTok_succ_none m c _ hc, if_neg (hnl c (by simp))]
        exact ih m (by simpa using hlen) fun x hx => hnl x (by simp [hx])

theorem gapTok_some_capture :
    ∀ (n : Nat) (s t : List Char), gapTok n s = some t →
      ∃ s2, captureToken s2 = some t := by
  intro n
  induction n with
  | zero =>
    intro s t h
    cases hc : captureToken s with
    | some t2 =>
      rw [gapTok_capture_some 0 s t2 hc] at h
      injection h with h2
      exact ⟨s, h2 ▸ hc⟩
    | none =>
      rw [gapTok_zero_none s hc] at h
      exact absurd h (by simp)
  | succ m ih =>
    intro s t h
    cases hc : captureToken s with
    | some t2 =>
      rw [gapTok_capture_some (Nat.succ m) s t2 hc] at h
      injection h with h2
      exact ⟨s, h2 ▸ hc⟩
    | none =>
      cases s with
      | nil =>
        have hz : gapTok (Nat.succ m) ([] : List Char) = none := rfl
        rw [hz] at h
        exact absurd h (by simp)
      | cons c cs =>
        rw [gapTok_succ_none m c cs hc] at h
        by_cases hcn : c = '\n'
        · rw [if_pos hcn] at h
          exact absurd h (by simp)
        · rw [if_neg hcn] at h
          exact ih cs t h

theorem litRun_append {w : List Char} (r : List Char) :
    ∀ e : List Char, e.map Char.toLower = w.map Char.toLower →
      litRun w (e ++ r) = some r := by
  induction w with
  | nil =>
    intro e h
    cases e with
    | nil => rfl
    | cons x xs => simp at h
  | cons c ws ih =>
    intro e h
    cases e with
    | nil => simp at h
    | cons d ds =>
      simp only [List.map_cons, List.cons_eq_cons] at h
      simp only [List.cons_append]
      unfold litRun
      rw [if_pos h.1]
      exact ih ds h.2

theorem mrun_eps {α : Type} (e rest : List Char) (g : Option (List Char))
    (k : List Char → Option (List Char) → Option α)
    (he : e.map Char.toLower = "eps".data)
    (hw : rest = [] ∨ ∃ c cs, rest = c :: cs ∧ isWordChar c = false) :
    mrun genericPat1.re (e ++ rest) g k = k rest g := by
  have hlit : litRun ("eps".data) (e ++ rest) = some rest :=
    litRun_append rest e (by rw [he]; decide)
  show (match litRun ("eps".data) (e ++ rest) with
    | some r2 => mrun MRe.wordEnd r2 g k
    | none => (none : Option α)) = k rest g
  rw [hlit]
  rcases hw with rfl | ⟨c, cs, rfl, hc⟩
  · rfl
  · show (if isWordChar c then none else k (c :: cs) g) = k (c :: cs) g
    rw [hc]
    rfl

theorem spacesRun_some {α : Type} :
    ∀ {s : List Char} {g : Option (List Char)}
      {k : List Char → Option (List Char) → Option α} {a : α},
      spacesRun s g k = some a → ∃ s2, k s2 g = some a := by
  intro s
  induction s with
  | nil =>
    intro g k a h
    exact ⟨[], h⟩
  | cons c cs ih =>
    intro g k a h
    unfold spacesRun at h
    by_cases hc : isSpaceChar c
    · rw [if_pos hc] at h
      cases hsr : spacesRun cs g k with
      | some r =>
        rw [hsr] at h
        injection h with h2
        obtain ⟨s2, h3⟩ := ih hsr
        exact ⟨s2, h2 ▸ h3⟩
      | none =>
        rw [hsr] at h
        exact ⟨c :: cs, h⟩
    · rw [if_neg hc] at h
      exact ⟨c :: cs, h⟩

theorem mrun_some {α : Type} :
    ∀ (r : MRe) {s : List Char} {g : Option (List Char)}
      {k : List Char → Option (List Char) → Option α} {a : α},
      mrun r s g k = some a → ∃ s2 g2, k s2 g2 = some a := by
  intro r
  induction r with
  | lit w =>
    intro s g k a h
    unfold mrun at h
    cases hl : litRun w s with
    | some rest =>
      rw [hl] at h
      exact ⟨rest, g, h⟩
    | none =>
      rw [hl] at h
      exact absurd h (by simp)
  | grp r ih =>
    intro s g k a h
    unfold mrun at h
    obtain ⟨s2, g2, h2⟩ := ih h
    exact ⟨s2, some (s.take (s.length - s2.length)), h2⟩
  | opt r ih =>
    intro s g k a h
    unfold mrun at h
    cases hm : mrun r s g k with
    | some res =>
      rw [hm] at h
      injection h with h2
      exact ih (h2 ▸ hm)
    | none =>
      rw [hm] at h
      exact ⟨s, g, h⟩
  | alt a1 a2 ih1 ih2 =>
    intro s g k a h
    unfold mrun at h
    cases hm : mrun a1 s g k with
    | some res =>
      rw [hm] at h
      injection h with h2
      exact ih1 (h2 ▸ hm)
    | none =>
      rw [hm] at h
      exact ih2 h
  | seq a1 a2 ih1 ih2 =>
    intro s g k a h
    unfold mrun at h
    obtain ⟨s2, g2, h2⟩ := ih1 h
    exact ih2 h2
  | spaces =>
    intro s g k a h
    unfold mrun at h
    obtain ⟨s2, h2⟩ := spacesRun_some h
    exact ⟨s2, g, h2⟩
  | dash =>
    intro s g k a h
    cases s with
    | nil =>
      rw [show mrun MRe.dash ([] : List Char) g k = none from rfl] at h
      exact absurd h (by simp)
    | cons c cs =>
      rw [show mrun MRe.dash (c :: cs) g k =
        if c = '-' || c = '—' then k cs g else none from rfl] at h
      split at h
      · exact ⟨cs, g, h⟩
      · exact absurd h (by simp)
  | wordEnd =>
    intro s g k a h
    cases s with
    | nil => exact ⟨[], g, h⟩
    | cons c cs =>
      rw [show mrun MRe.wordEnd (c :: cs) g k =
        if isWordChar c then none else k (c :: cs) g from rfl] at h
      split at h
      · exact absurd h (by simp)
      · exact ⟨c :: cs, g, h⟩

/-- The character preceding the scan position reached after consuming `u`,
starting from `prev`. -/
def prevAfter (prev : Option Char) (u : List Char) : Option Char :=
  match u.getLast? with
  | some c => some c
  | none => prev

theorem prevAfter_cons (prev : Option Char) (c : Char) (u : List Char) :
    prevAfter prev (c :: u) = prevAfter (some c) u := by
  cases u with
  | nil => rfl
  | cons d u2 =>
    unfold prevAfter
    rw [List.getLast?_cons_cons]
    cases hl : (d :: u2).getLast? with
    | some x => rfl
    | none => simp at hl

theorem parseEpsWithRegexAux_cons (p : KPat) (ps : List KPat) (s : List Char) :
    parseEpsWithRegexAux (p :: ps) s =
      match fallbackSearch p s with
      | some g1 =>
        match formatEpsValueOpt g1 with
        | some v =>
          if v = [] then parseEpsWithRegexAux ps s
          else some (v, "Regex", p.src)
        | none => parseEpsWithRegexAux ps s
      | none => parseEpsWithRegexAux ps s := rfl

theorem fallbackSearchAux_some (p : KPat) :
    ∀ (s : List Char) (prev : Option Char) (g : Option (List Char)),
      fallbackSearchAux p prev s = some g →
      ∃ prev2 s2, fallbackTryAt p prev2 s2 = some g := by
  intro s
  induction s with
  | nil =>
    intro prev g h
    exact ⟨prev, [], h⟩
  | cons c cs ih =>
    intro prev g h
    unfold fallbackSearchAux at h
    cases ht : fallbackTryAt p prev (c :: cs) with
    | some g2 =>
      rw [ht] at h
      injection h with h2
      exact ⟨prev, c :: cs, h2 ▸ ht⟩
    | none =>
      rw [ht] at h
      exact ih (some c) g h

theorem fallbackSearchAux_of_tryAt (p : KPat) :
    ∀ (u s2 : List Char) (prev : Option Char),
      fallbackTryAt p (prevAfter prev u) s2 ≠ none →
      fallbackSearchAux p prev (u ++ s2) ≠ none := by
  intro u
  induction u with
  | nil =>
    intro s2 prev h
    rw [List.nil_append]
    cases s2 with
    | nil => exact h
    | cons c cs =>
      unfold fallbackSearchAux
      cases ht : fallbackTryAt p prev (c :: cs) with
      | some g => simp
      | none => exact absurd ht h
  | cons c u2 ih =>
    intro s2 prev h
    rw [List.cons_append]
    unfold fallbackSearchAux
    cases ht : fallbackTryAt p prev (c :: (u2 ++ s2)) with
    | some g => simp
    | none =>
      apply ih s2 (some c)
      rw [← prevAfter_cons prev c u2]
      exact h

/-- The augmented `\beps\b.{0,50}?(\(?\$\s?\d+\.\d+\)?)` regex matches at a
position where a word-bounded case-insensitive `eps` is followed within at
most 50 non-newline characters by a `$`-token. -/
theorem fallbackTryAt_eps (prev : Option Char) (e gp d1 d2 v : List Char)
    (hprev : boundaryOK prev = true)
    (he : e.map Char.toLower = "eps".data)
    (hg : gp.length ≤ 50) (hgn : ∀ c ∈ gp, c ≠ '\n')
    (hgw : gp = [] ∨ ∃ c cs, gp = c :: cs ∧ isWordChar c = false)
    (hd1 : d1 ≠ []) (hd1d : ∀ c ∈ d1, c.isDigit)
    (hd2 : d2 ≠ []) (hd2d : ∀ c ∈ d2, c.isDigit) :
    fallbackTryAt genericPat1 prev
      (e ++ (gp ++ '$' :: (d1 ++ '.' :: (d2 ++ v)))) ≠ none := by
  have hw : (gp ++ '$' :: (d1 ++ '.' :: (d2 ++ v))) = [] ∨
      ∃ c cs, (gp ++ '$' :: (d1 ++ '.' :: (d2 ++ v))) = c :: cs ∧ isWordChar c = false := by
    rcases hgw with rfl | ⟨c, cs, rfl, hc⟩
    · exact Or.inr ⟨'$', d1 ++ '.' :: (d2 ++ v), by rw [List.nil_append], by decide⟩
    · exact Or.inr ⟨c, cs ++ '$' :: (d1 ++ '.' :: (d2 ++ v)), by rw [List.cons_append], hc⟩
  unfold fallbackTryAt
  rw [if_neg (show ¬ ((genericPat1.needB && !boundaryOK prev) = true) by rw [hprev]; decide)]
  rw [mrun_eps _ _ _ _ he hw]
  show (match gapTok 50 (gp ++ '$' :: (d1 ++ '.' :: (d2 ++ v))) with
    | some tok => some (if genericPat1.hasGrp then (none : Option (List Char)) else some tok)
    | none => none) ≠ none
  cases hgt : gapTok 50 (gp ++ '$' :: (d1 ++ '.' :: (d2 ++ v))) with
  | some tok => simp
  | none =>
    exact absurd hgt
      (gapTok_ne_none ('$' :: (d1 ++ '.' :: (d2 ++ v)))
        (captureToken_ne_none d1 d2 v hd1 hd1d hd2 hd2d) gp 50 hg hgn)

/-- Any `group(1)` returned by the augmented `\beps\b` search is the
captured `$`-token, and the Normalizer returns a truthy value on it. -/
theorem fallbackStep_eps {s : List Char} {g : Option (List Char)}
    (h : fallbackSearch genericPat1 s = some g) :
    ∃ t, g = some t ∧ ∃ v, formatEpsValue t = some v ∧ v ≠ [] := by
  obtain ⟨prev2, s2, ht⟩ := fallbackSearchAux_some genericPat1 s none g h
  unfold fallbackTryAt at ht
  by_cases hc : (genericPat1.needB && !boundaryOK prev2) = true
  · rw [if_pos hc] at ht
    exact absurd ht (by simp)
  · rw [if_neg hc] at ht
    obtain ⟨s3, g3, hk⟩ := mrun_some genericPat1.re ht
    cases hgt : gapTok 50 s3 with
    | none =>
      rw [hgt] at hk
      exact absurd hk (by simp)
    | some tok =>
      rw [hgt] at hk
      injection hk with hk2
      have hg : g = some tok := by
        rw [← hk2]
        rfl
      obtain ⟨s4, hcap⟩ := gapTok_some_capture 50 s3 tok hgt
      exact ⟨tok, hg, captureToken_format hcap⟩

/-- If the `\beps\b` fallback search succeeds, the whole pattern loop of
`_parse_eps_with_regex` returns a value: every earlier pattern either
returns (success) or falls through, and the `\beps\b` entry itself returns
because its `group(1)` is the numeric token. -/
theorem parseEpsWithRegexAux_ne_none {s : List Char} :
    ∀ ps : List KPat, genericPat1 ∈ ps →
      fallbackSearch genericPat1 s ≠ none →
      parseEpsWithRegexAux ps s ≠ none := by
  intro ps
  induction ps with
  | nil =>
    intro h
    exact absurd h (List.not_mem_nil _)
  | cons p ps2 ih =>
    intro hmem hsrch
    cases hfs : fallbackSearch p s with
    | some g1 =>
      cases hfmt : formatEpsValueOpt g1 with
      | some v =>
        have heq : parseEpsWithRegexAux (p :: ps2) s =
            if v = [] then parseEpsWithRegexAux ps2 s else some (v, "Regex", p.src) := by
          simp only [parseEpsWithRegexAux_cons, hfs, hfmt]
        rw [heq]
        by_cases hv : v = []
        · rw [if_pos hv]
          rcases List.mem_cons.mp hmem with hmeq | hmem2
          · subst hmeq
            obtain ⟨t, hgt, v2, hfv, hvne⟩ := fallbackStep_eps hfs
            rw [hgt] at hfmt
            have hvv : v = v2 := by
              have h4 : formatEpsValue t = some v := hfmt
              rw [hfv] at h4
              injection h4 with h3
              exact h3.symm
            exact absurd (hvv ▸ hv) hvne
          · exact ih hmem2 hsrch
        · rw [if_neg hv]
          simp
      | none =>
        have heq : parseEpsWithRegexAux (p :: ps2) s = parseEpsWithRegexAux ps2 s := by
          simp only [parseEpsWithRegexAux_cons, hfs, hfmt]
        rw [heq]
        rcases List.mem_cons.mp hmem with hmeq | hmem2
        · subst hmeq
          obtain ⟨t, hgt, v2, hfv, hvne⟩ := fallbackStep_eps hfs
          rw [hgt] at hfmt
          have h4 : formatEpsValue t = none := hfmt
          rw [hfv] at h4
          exact absurd h4 (by simp)
        · exact ih hmem2 hsrch
    | none =>
      have heq : parseEpsWithRegexAux (p :: ps2) s = parseEpsWithRegexAux ps2 s := by
        simp only [parseEpsWithRegexAux_cons, hfs]
      rw [heq]
      rcases List.mem_cons.mp hmem with hmeq | hmem2
      · subst hmeq
        exact absurd hfs hsrch
      · exact ih hmem2 hsrch

/-- C2 counterexample: in `"basic eps was 0.41 for the quarter"` the catalog
label `\bbasic eps\b` matches and is followed within 50 characters by the
decimal token `0.41` carrying no `$` sign, yet the Text Fallback Strategy
returns nothing: the currency sign in the augmented pattern's numeric token
is mandatory (`\$`), not optional. -/
theorem c2_counterexample :
    patSearch basicPat4 ("basic eps was 0.41 for the quarter".data) = true ∧
    parseEpsWithRegex ("basic eps was 0.41 for the quarter".data) = none := by
  constructor
  · decide
  · decide

/-- C2 (amended): the currency sign in the numeric token is required, not
optional: the token of the augmented pattern is `\(?\$\s?\d+\.\d+\)?`.  And
a value is only returned through the patterns without capture groups of
their own (for the others, `group(1)` is the label's own first group and
never normalizes).  Whenever the flattened text contains a word-bounded,
case-insensitive `eps` followed within at most 50 non-newline characters by
a token `\$\d+\.\d+`, the fallback strategy returns a normalized value (the
one selected by pattern priority and leftmost match). -/
theorem c2_amended (s u e gp d1 d2 v : List Char)
    (hs : s = u ++ (e ++ (gp ++ '$' :: (d1 ++ '.' :: (d2 ++ v)))))
    (hu : ∀ c, u.getLast? = some c → isWordChar c = false)
    (he : e.map Char.toLower = "eps".data)
    (hg : gp.length ≤ 50) (hgn : ∀ c ∈ gp, c ≠ '\n')
    (hgw : gp = [] ∨ ∃ c cs, gp = c :: cs ∧ isWordChar c = false)
    (hd1 : d1 ≠ []) (hd1d : ∀ c ∈ d1, c.isDigit)
    (hd2 : d2 ≠ []) (hd2d : ∀ c ∈ d2, c.isDigit) :
    parseEpsWithRegex s ≠ none := by
  have hb : boundaryOK (prevAfter none u) = true := by
    unfold prevAfter
    cases hl : u.getLast? with
    | none => rfl
    | some c =>
      show (!(isWordChar c)) = true
      rw [hu c hl]
      rfl
  have htry := fallbackTryAt_eps (prevAfter none u) e gp d1 d2 v hb he hg hgn hgw
    hd1 hd1d hd2 hd2d
  have hsearch : fallbackSearch genericPat1 s ≠ none := by
    rw [hs]
    exact fallbackSearchAux_of_tryAt genericPat1 u _ none htry
  have hmem : genericPat1 ∈ allPats := by
    unfold allPats
    exact List.mem_append_right _ (by simp [genericPats])
  exact parseEpsWithRegexAux_ne_none allPats hmem hsearch

/-- C2 witness: a prose sentence with a `$`-carrying EPS figure, through
`c2_amended`. -/
theorem c2_witness :
    parseEpsWithRegex ("Quarterly EPS was $0.41 this quarter".data) ≠ none := by
  apply c2_amended _ ("Quarterly ".data) ("EPS".data) (" was ".data)
    ("0".data) ("41".data) (" this quarter".data)
  · decide
  · intro c hc
    have hl : ("Quarterly ".data).getLast? = some ' ' := by decide
    rw [hl] at hc
    injection hc with h2
    rw [← h2]
    decide
  · decide
  · decide
  · decide
  · exact Or.inr ⟨' ', "was ".data, by decide, by decide⟩
  · decide
  · decide
  · decide
  · decide

end EdgarParser
